import Mathlib

/-
Shallow embedding of the Nurdd scrape-and-enhance pipeline
(src/services/scrapingService.js: WebsiteScrapingService, AIEnhancementService).

Strings are modelled as Lean `String` (a list of characters); the JavaScript
string operations used by the code (trim, substring, split, includes, the
replace calls with their concrete regexes, toUpperCase on the first character)
are given faithful executable models on `List Char`.  JavaScript string
truthiness (`a || b`) is modelled by `jsOr`: the empty string is the only
falsy string, and an absent (`undefined`) meta attribute is modelled as
`Option.none`, collapsed by `Option.getD ""` since both are falsy.

External effects are modelled as explicit parameters:
 * `new URL(string)` (the host URL parser) is a parameter
   `parseURL : String → Option URLObj`; a constructor exception is `none`.
 * browser launch and each `page.goto` attempt are `Except String _`
   outcomes carried by a `ScrapeEnv`; the error payload is the thrown
   error's `.message`.
 * the single Gemini `generateContent` call is an `Except String String`
   (`Except.ok` holds `response.text()`, `Except.error` the thrown message).
-/

namespace Nurdd

/-- Whitespace as matched by the JavaScript `\s` class and by `String.prototype.trim`,
restricted to the ASCII range: space, tab, line feed, vertical tab, form feed,
carriage return. -/
def isJsWs (c : Char) : Bool :=
  c.toNat = 32 || c.toNat = 9 || c.toNat = 10 || c.toNat = 11 || c.toNat = 12 || c.toNat = 13

/-- Sentence-terminal punctuation, the class `[.!?]` of the source's regexes. -/
def isPunct (c : Char) : Bool :=
  c = '.' || c = '!' || c = '?'

/-- ASCII lower-case letter, the class `[a-z]`. -/
def isLowerAZ (c : Char) : Bool :=
  97 ≤ c.toNat && c.toNat ≤ 122

/-- Quote characters of the class `["']` in `sanitizeEnhancedDescription`
(double quote, code 34, and single quote, code 39). -/
def isQuoteChar (c : Char) : Bool :=
  c.toNat = 34 || c.toNat = 39

/-- JavaScript `String.prototype.trim` on a character list: drop whitespace
from both ends. -/
def jsTrimList (l : List Char) : List Char :=
  ((l.dropWhile isJsWs).reverse.dropWhile isJsWs).reverse

/-- JavaScript `s.trim()`. -/
def jsTrim (s : String) : String :=
  String.mk (jsTrimList s.data)

/-- JavaScript `s.substring(0, n)`: the first `n` characters. -/
def jsSubstring (s : String) (n : Nat) : String :=
  String.mk (s.data.take n)

/-- JavaScript `a || b` on strings: the empty string is the only falsy string. -/
def jsOr (a b : String) : String :=
  if a = "" then b else a

/-- Does `pat` occur at the very start of `l`? -/
def leadsWith : List Char → List Char → Bool
  | [], _ => true
  | _ :: _, [] => false
  | p :: ps, c :: cs => p = c && leadsWith ps cs

/-- Characters of `l` before the first occurrence of `sep`; all of `l` when
`sep` does not occur. -/
def upToSep (sep : List Char) : List Char → List Char
  | [] => []
  | c :: rest => if leadsWith sep (c :: rest) then [] else c :: upToSep sep rest

/-- JavaScript `s.split(sep)[0]` for a non-empty separator. -/
def splitFirst (s : String) (sep : String) : String :=
  String.mk (upToSep sep.data s.data)

/-- Does `sub` occur somewhere in `l`? -/
def hasSeg (sub : List Char) : List Char → Bool
  | [] => sub.isEmpty
  | c :: rest => leadsWith sub (c :: rest) || hasSeg sub rest

/-- JavaScript `s.includes(sub)`. -/
def jsIncludes (s sub : String) : Bool :=
  hasSeg sub.data s.data

/-- The result of a successful `new URL(string)`; the code reads only the
`protocol` field. -/
structure URLObj where
  protocol : String
deriving DecidableEq

/-- WebsiteScrapingService.isValidUrl: construct a URL (the host parser is the
parameter `parseURL`; a thrown constructor exception is `none`, caught and
turned into `false`) and accept exactly the protocols `http:` and `https:`. -/
def isValidUrl (parseURL : String → Option URLObj) (string : String) : Bool :=
  match parseURL string with
  | some url => url.protocol = "http:" || url.protocol = "https:"
  | none => false

/-- The document fields the two extractors read from the rendered page, as
selected by the cheerio queries in `extractBrandName` / `extractDescription`.
A `meta` attribute read with `.attr('content')` is `none` when the tag or
attribute is absent (JavaScript `undefined`); the `.text()` queries give `""`
when no element matches. -/
structure ScrapedPage where
  ogSiteName : Option String
  applicationName : Option String
  title : String
  h1Text : String
  logoText : String
  descriptionMeta : Option String
  ogDescription : Option String
  twitterDescription : Option String
  firstParagraph : String

/-- WebsiteScrapingService.extractBrandName: the `||` chain over
og:site_name, application-name, the title split on " - " then " | ",
the first h1, the header logo text, and the literal fallback; the winner
is trimmed and truncated to 255 characters. -/
def extractBrandName (p : ScrapedPage) : String :=
  let brandName :=
    jsOr (p.ogSiteName.getD "")
      (jsOr (p.applicationName.getD "")
        (jsOr (splitFirst (splitFirst p.title " - ") " | ")
          (jsOr p.h1Text
            (jsOr p.logoText "Unknown Brand"))))
  jsSubstring (jsTrim brandName) 255

/-- WebsiteScrapingService.extractDescription: the `||` chain over the
description meta tag, og:description, twitter:description, the first
paragraph, and the literal fallback; trimmed and truncated to 1000
characters. -/
def extractDescription (p : ScrapedPage) : String :=
  let description :=
    jsOr (p.descriptionMeta.getD "")
      (jsOr (p.ogDescription.getD "")
        (jsOr (p.twitterDescription.getD "")
          (jsOr p.firstParagraph "No description available")))
  jsSubstring (jsTrim description) 1000

/-- Modelled from the spec: the "first non-empty match wins" reducer of the
spec's extraction policy (§4.1 and design note §9), used to compare the
source's `||` chains against the spec's ordered-candidate-list reading. -/
def firstNonEmptyMatch : List String → String → String
  | [], dflt => dflt
  | s :: rest, dflt => if s ≠ "" then s else firstNonEmptyMatch rest dflt

/-- Characters of `l` strictly after the first `'>'` (empty when there is
none): the continuation point of a global `<[^>]*>` match. -/
def afterGt (l : List Char) : List Char :=
  (l.dropWhile (fun c => c ≠ '>')).tail

/-- JavaScript `s.replace(/<[^>]*>/g, '')`: a match runs from a `'<'` to the
first following `'>'`; a `'<'` with no later `'>'` matches nothing and is
kept. -/
def removeHtmlTags : List Char → List Char
  | [] => []
  | c :: rest =>
    if c = '<' && rest.contains '>' then removeHtmlTags (afterGt rest)
    else c :: removeHtmlTags rest
termination_by l => l.length
decreasing_by
  · simp only [afterGt, List.length_cons]
    have h1 : ((rest.dropWhile fun c => c ≠ '>').tail).length ≤
        (rest.dropWhile fun c => c ≠ '>').length := by
      cases rest.dropWhile fun c => c ≠ '>' with
      | nil => simp
      | cons a t => simp
    have h2 : (rest.dropWhile fun c => c ≠ '>').length ≤ rest.length :=
      (List.dropWhile_sublist _).length_le
    omega
  · simp

/-- JavaScript `s.replace(/\s+/g, ' ')`: each maximal run of whitespace
becomes a single space. -/
def collapseWhitespace : List Char → List Char
  | [] => []
  | c :: rest =>
    if isJsWs c then ' ' :: collapseWhitespace (rest.dropWhile isJsWs)
    else c :: collapseWhitespace rest
termination_by l => l.length
decreasing_by
  · have := (List.dropWhile_sublist (l := rest) isJsWs).length_le
    simp only [List.length_cons]
    omega
  · simp

/-- JavaScript `s.replace(/([.!?])\s*([a-z])/g, '$1 $2')`: after a terminal
punctuation mark directly followed (up to whitespace) by a lower-case letter,
the whitespace is replaced by a single space; scanning resumes after the
letter. -/
def fixPunctSpacing : List Char → List Char
  | [] => []
  | c :: rest =>
    if isPunct c then
      match h : rest.dropWhile isJsWs with
      | d :: rest₂ =>
        if isLowerAZ d then c :: ' ' :: d :: fixPunctSpacing rest₂
        else c :: fixPunctSpacing rest
      | [] => c :: fixPunctSpacing rest
    else c :: fixPunctSpacing rest
termination_by l => l.length
decreasing_by
  · have h1 : (rest.dropWhile isJsWs).length ≤ rest.length :=
      (List.dropWhile_sublist _).length_le
    have h2 : (rest.dropWhile isJsWs).length = rest₂.length + 1 := by
      rw [h]; simp
    simp only [List.length_cons]
    omega
  · simp
  · simp
  · simp

/-- JavaScript `enhanced.charAt(0).toUpperCase() + enhanced.slice(1)`:
upper-case the first character (`Char.toUpper` is the ASCII case map, as
`toUpperCase` is on ASCII input). -/
def capitalizeFirst : List Char → List Char
  | [] => []
  | c :: rest => c.toUpper :: rest

/-- JavaScript `/[.!?]$/.test(s)`: the last character is terminal
punctuation (false on the empty string). -/
def endsWithPunct (l : List Char) : Bool :=
  match l.getLast? with
  | some c => isPunct c
  | none => false

/-- The shared length cap of `fallbackEnhancement` and
`sanitizeEnhancedDescription`: over 1000 characters, keep 997 and append
an ellipsis of three dots. -/
def limitTo1000 (l : List Char) : List Char :=
  if l.length > 1000 then l.take 997 ++ ['.', '.', '.'] else l

/-- AIEnhancementService.fallbackEnhancement: the deterministic local
cleanup. Empty (or whitespace-only) input gives the literal fallback;
otherwise trim, strip HTML tags, collapse whitespace, fix spacing after
sentence punctuation, capitalize the first letter, append a period when the
text does not already end in terminal punctuation, and cap at 1000
characters. -/
def fallbackEnhancement (rawDescription : String) : String :=
  if (jsTrimList rawDescription.data).length = 0 then "No description available"
  else
    let e1 := jsTrimList rawDescription.data
    let e2 := removeHtmlTags e1
    let e3 := collapseWhitespace e2
    let e4 := fixPunctSpacing e3
    let e5 := capitalizeFirst e4
    let e6 := if endsWithPunct e5 then e5 else e5 ++ ['.']
    String.mk (limitTo1000 e6)

/-- JavaScript `description.replace(/^["']|["']$/g, '')`, leading half:
remove one leading quote character. -/
def dropLeadQuote : List Char → List Char
  | [] => []
  | c :: rest => if isQuoteChar c then rest else c :: rest

/-- JavaScript `description.replace(/^["']|["']$/g, '')`, trailing half:
remove one trailing quote character. -/
def dropTrailQuote (l : List Char) : List Char :=
  match l.getLast? with
  | some c => if isQuoteChar c then l.dropLast else l
  | none => l

/-- Case-insensitive (ASCII) match of `pat` at the start of `l`. -/
def leadsWithCI : List Char → List Char → Bool
  | [], _ => true
  | _ :: _, [] => false
  | p :: ps, c :: cs => p.toLower = c.toLower && leadsWithCI ps cs

/-- JavaScript `description.replace(/^Enhanced Description:\s*/i, '')`:
drop a case-insensitive leading "Enhanced Description:" label and the
whitespace after it. -/
def dropEnhancedLabel (l : List Char) : List Char :=
  let pat := ("Enhanced Description:").data
  if leadsWithCI pat l then (l.drop pat.length).dropWhile isJsWs else l

/-- AIEnhancementService.sanitizeEnhancedDescription: strip one wrapping
quote character at each end, strip a leading "Enhanced Description:" label,
strip HTML tags, collapse whitespace and trim, and cap at 1000 characters. -/
def sanitizeEnhancedDescription (description : String) : String :=
  let d1 := dropTrailQuote (dropLeadQuote description.data)
  let d2 := dropEnhancedLabel d1
  let d3 := removeHtmlTags d2
  let d4 := jsTrimList (collapseWhitespace d3)
  String.mk (limitTo1000 d4)

/-- AIEnhancementService state: `enabled` is fixed at construction
(`!!process.env.GEMINI_API_KEY`); `remote` is the outcome of the single
`generateContent`/`response.text()` call (`Except.error` carries the thrown
error's message). The prompt built by `buildEnhancementPrompt` only feeds
the remote call, whose response is the arbitrary `remote` value here, so it
has no further semantic effect in the model. -/
structure AIEnhancementService where
  enabled : Bool
  remote : Except String String

/-- AIEnhancementService.getStats. -/
structure AIStats where
  enabled : Bool
  model : String
  fallbackMode : Bool
deriving DecidableEq

def getStats (svc : AIEnhancementService) : AIStats :=
  { enabled := svc.enabled, model := "gemini-1.5-flash", fallbackMode := !svc.enabled }

/-- AIEnhancementService.enhanceDescription: disabled service falls back to
the local cleanup; an absent or short (under 10 characters after trimming)
description is returned as is (or as the literal fallback when absent);
otherwise the remote call is made once, its non-empty response sanitized,
and any thrown error or empty response absorbed by `fallbackEnhancement`. -/
def enhanceDescription (svc : AIEnhancementService) (rawDescription : String)
    (brandName : String := "") (url : String := "") : String :=
  if !svc.enabled then fallbackEnhancement rawDescription
  else if rawDescription = "" || (jsTrim rawDescription).length < 10 then
    (if rawDescription = "" then "No description available" else rawDescription)
  else
    match svc.remote with
    | Except.error _ => fallbackEnhancement rawDescription
    | Except.ok text =>
      let enhancedDescription := jsTrim text
      if enhancedDescription.length > 0 then sanitizeEnhancedDescription enhancedDescription
      else fallbackEnhancement rawDescription

/-- The error-classification cascade of `scrapeWebsiteInstance`'s catch
block: substring-match the thrown message, yielding
(errorCategory, userFriendlyMessage). -/
def classifyScrapeError (msg : String) : String × String :=
  if jsIncludes msg "ERR_NAME_NOT_RESOLVED" || jsIncludes msg "ENOTFOUND" then
    ("DOMAIN_NOT_FOUND", "Website domain could not be found")
  else if jsIncludes msg "ERR_CONNECTION_REFUSED" || jsIncludes msg "ECONNREFUSED" then
    ("CONNECTION_REFUSED", "Website refused connection")
  else if jsIncludes msg "Navigation timeout" || jsIncludes msg "ETIMEDOUT" then
    ("TIMEOUT", "Website took too long to respond")
  else if jsIncludes msg "ERR_SSL_PROTOCOL_ERROR" then
    ("SSL_ERROR", "SSL certificate error")
  else if jsIncludes msg "ERR_TOO_MANY_REDIRECTS" then
    ("REDIRECT_ERROR", "Too many redirects")
  else if jsIncludes msg "Invalid URL format" then
    ("INVALID_URL", "Invalid URL format")
  else ("UNKNOWN_ERROR", msg)

/-- The navigation loop of `scrapeWebsiteInstance`:
`while (retries > 0) { try { goto; break } catch { retries--; if
(retries === 0) throw; delay } }`, with `nav i` the outcome of the i-th
`page.goto`. The source enters the loop with `retries = 1`. -/
def navigateWithRetry (nav : Nat → Except String ScrapedPage) :
    Nat → Nat → Except String ScrapedPage
  | _, 0 => Except.error "navigation loop not entered"
  | attempt, r + 1 =>
    match nav attempt with
    | Except.ok page => Except.ok page
    | Except.error e =>
      if r = 0 then Except.error e
      else navigateWithRetry nav (attempt + 1) r

/-- The per-call environment of `scrapeWebsiteInstance`: the host URL
parser, the `puppeteer.launch` outcome, the outcome of each successive
`page.goto` attempt, and the AI enhancement service state. -/
structure ScrapeEnv where
  parseURL : String → Option URLObj
  launch : Except String Unit
  nav : Nat → Except String ScrapedPage
  ai : AIEnhancementService

/-- The object `scrapeWebsiteInstance` returns: fields absent on a given
path (`error` on success, the content fields on failure, `aiStats` on
failure) are `none`. -/
structure ScrapeResult where
  url : String
  brandName : Option String
  description : Option String
  rawDescription : Option String
  enhanced : Bool
  aiStats : Option AIStats
  success : Bool
  error : Option String
  errorCategory : Option String
  originalError : Option String

/-- The try-block of `scrapeWebsiteInstance`: validate the URL (an invalid
one throws "Invalid URL format"), launch the browser, navigate with the
retry loop entered at `retries = 1`, extract both fields, optionally enhance
the description (`enhanceDescription` never throws, so its surrounding
try/catch never fires), and build the success result. -/
def scrapeAttempt (env : ScrapeEnv) (url : String) (options : Option Bool) :
    Except String ScrapeResult :=
  if !isValidUrl env.parseURL url then Except.error "Invalid URL format"
  else
    match env.launch with
    | Except.error e => Except.error e
    | Except.ok _ =>
      match navigateWithRetry env.nav 0 1 with
      | Except.error e => Except.error e
      | Except.ok page =>
        let brandName := extractBrandName page
        let rawDescription := extractDescription page
        let enhanceFlag := options ≠ some false
        let description :=
          if enhanceFlag then enhanceDescription env.ai rawDescription brandName url
          else rawDescription
        Except.ok
          { url := url
            brandName := some brandName
            description := some description
            rawDescription := some rawDescription
            enhanced := enhanceFlag && description ≠ rawDescription
            aiStats := some (getStats env.ai)
            success := true
            error := none
            errorCategory := none
            originalError := none }

/-- WebsiteScrapingService.scrapeWebsiteInstance: run the try-block; any
thrown error is classified and becomes the failure result with all content
fields null. `options` is the `options.enhanceDescription` field
(`none` = absent, defaulting to enhancement on). -/
def scrapeWebsiteInstance (env : ScrapeEnv) (url : String) (options : Option Bool) :
    ScrapeResult :=
  match scrapeAttempt env url options with
  | Except.ok r => r
  | Except.error msg =>
    let c := classifyScrapeError msg
    { url := url
      brandName := none
      description := none
      rawDescription := none
      enhanced := false
      aiStats := none
      success := false
      error := some c.2
      errorCategory := some c.1
      originalError := some msg }

/-! Predicates used to state the idempotence of the local cleanup. -/

/-- Every whitespace character of `l` is a plain space. -/
def wsOnlySpace (l : List Char) : Bool :=
  l.all (fun c => !isJsWs c || c = ' ')

/-- No two adjacent whitespace characters in `l`. -/
def noAdjWs : List Char → Bool
  | [] => true
  | c :: rest =>
    (match rest.head? with
     | some d => !(isJsWs c && isJsWs d)
     | none => true) && noAdjWs rest

/-- The first character of `l`, if any, is not whitespace. -/
def noLeadWs : List Char → Bool
  | [] => true
  | c :: _ => !isJsWs c

/-- The last character of `l`, if any, is not whitespace. -/
def noTrailWs (l : List Char) : Bool :=
  match l.getLast? with
  | some c => !isJsWs c
  | none => true

/-- Already-clean text in the sense of the spec's idempotence property:
ends in terminal punctuation, holds no markup (no `'<'` at all), and has
normalized whitespace — every whitespace character is a single interior
plain space. -/
def isCleanText (l : List Char) : Bool :=
  endsWithPunct l && l.all (fun c => c ≠ '<') && wsOnlySpace l && noAdjWs l && noLeadWs l

/-- Fixed-point characterization of `fixPunctSpacing`: scanning with the
same branch structure, `okF l` holds exactly when every
punctuation-whitespace-lowercase pattern of `l` is already in the
replaced form (punctuation, one space, letter). -/
def okF : List Char → Bool
  | [] => true
  | c :: rest =>
    if isPunct c then
      match h : rest.dropWhile isJsWs with
      | d :: rest₂ =>
        if isLowerAZ d then decide (rest = ' ' :: d :: rest₂) && okF rest₂
        else okF rest
      | [] => okF rest
    else okF rest
termination_by l => l.length
decreasing_by
  · have h1 : (rest.dropWhile isJsWs).length ≤ rest.length :=
      (List.dropWhile_sublist _).length_le
    have h2 : (rest.dropWhile isJsWs).length = rest₂.length + 1 := by
      rw [h]; simp
    simp only [List.length_cons]
    omega
  · simp
  · simp
  · simp

/-! Concrete fixtures used by witnesses and counterexamples. -/

/-- A page with no usable content anywhere. -/
def emptyPage : ScrapedPage :=
  { ogSiteName := none, applicationName := none, title := "", h1Text := "",
    logoText := "", descriptionMeta := none, ogDescription := none,
    twitterDescription := none, firstParagraph := "" }

/-- A page carrying an og:site_name of "Acme" and a title "Acme - Home". -/
def acmePage : ScrapedPage :=
  { ogSiteName := some "Acme", applicationName := none, title := "Acme - Home",
    h1Text := "", logoText := "", descriptionMeta := none, ogDescription := none,
    twitterDescription := none, firstParagraph := "" }

/-- A page whose only description source is a description meta tag. -/
def greatShopPage : ScrapedPage :=
  { ogSiteName := none, applicationName := none, title := "", h1Text := "",
    logoText := "", descriptionMeta := some "A great shop", ogDescription := none,
    twitterDescription := none, firstParagraph := "" }

/-- A URL parser that rejects every string. -/
def noParse : String → Option URLObj := fun _ => none

/-- A URL parser that parses every string as an https URL. -/
def httpsParse : String → Option URLObj := fun _ => some { protocol := "https:" }

/-- Navigation outcomes whose first attempt fails with a transient timeout
and whose second (and every later) attempt would succeed. -/
def navFirstFails : Nat → Except String ScrapedPage :=
  fun n => if n = 0 then Except.error "Navigation timeout of 20000 ms exceeded"
           else Except.ok emptyPage

/-- Environment for probing the navigation retry behaviour. -/
def envRetryProbe : ScrapeEnv :=
  { parseURL := httpsParse, launch := Except.ok (), nav := navFirstFails,
    ai := { enabled := false, remote := Except.error "no key" } }

/-- Environment whose URL parser rejects everything. -/
def envInvalid : ScrapeEnv :=
  { parseURL := noParse, launch := Except.ok (), nav := fun _ => Except.ok emptyPage,
    ai := { enabled := false, remote := Except.error "no key" } }

/-- Environment with a working page load but a rate-limited AI call. -/
def envQuota : ScrapeEnv :=
  { parseURL := httpsParse, launch := Except.ok (), nav := fun _ => Except.ok emptyPage,
    ai := { enabled := true, remote := Except.error "429 quota exceeded" } }

/-! Support lemmas. -/

theorem strMk_length (l : List Char) : (String.mk l).length = l.length := rfl

theorem strMk_ne_empty {l : List Char} (h : l ≠ []) : String.mk l ≠ "" := by
  intro he
  exact h (by simpa using congrArg String.data he)

theorem jsOr_eq_firstTwo (s : String) (rest : List String) (dflt : String) :
    firstNonEmptyMatch (s :: rest) dflt = jsOr s (firstNonEmptyMatch rest dflt) := by
  simp only [firstNonEmptyMatch, jsOr]
  rcases eq_or_ne s "" with h | h
  · simp [h]
  · simp [h]

theorem limitTo1000_length_le (l : List Char) : (limitTo1000 l).length ≤ 1000 := by
  unfold limitTo1000
  split
  · simp only [List.length_append, List.length_take, List.length_cons, List.length_nil]
    omega
  · omega

theorem limitTo1000_ne_nil {l : List Char} (h : l ≠ []) : limitTo1000 l ≠ [] := by
  unfold limitTo1000
  split
  · simp
  · exact h

theorem endsWithPunct_ne_nil {l : List Char} (h : endsWithPunct l = true) : l ≠ [] := by
  intro he
  subst he
  simp [endsWithPunct] at h

theorem fallbackEnhancement_ne_empty (s : String) : fallbackEnhancement s ≠ "" := by
  unfold fallbackEnhancement
  split
  · decide
  · apply strMk_ne_empty
    apply limitTo1000_ne_nil
    split
    · exact endsWithPunct_ne_nil (by assumption)
    · simp

theorem scrapeAttempt_ok_fields {env : ScrapeEnv} {url : String} {options : Option Bool}
    {r : ScrapeResult} (h : scrapeAttempt env url options = Except.ok r) :
    r.success = true ∧ r.error = none ∧ r.errorCategory = none := by
  unfold scrapeAttempt at h
  split at h
  · cases h
  · split at h
    · cases h
    · split at h
      · cases h
      · cases h
        exact ⟨rfl, rfl, rfl⟩

/-! Claim theorems. -/

/-- C10: `isValidUrl` is a total Boolean predicate on strings (a parser
exception is caught and yields `false`), and it returns `true` exactly when
the string parses as an absolute URL whose protocol is `http:` or `https:`. -/
theorem isValidUrl_total_iff :
    ∀ (parseURL : String → Option URLObj) (s : String),
      isValidUrl parseURL s = true ↔
        ∃ u, parseURL s = some u ∧ (u.protocol = "http:" ∨ u.protocol = "https:") := by
  intro parseURL s
  unfold isValidUrl
  cases h : parseURL s with
  | none => simp
  | some u => simp [Bool.or_eq_true, decide_eq_true_eq]

/-- C5: brand-name extraction is the "first non-empty match wins" reduction
of the ordered candidate list og:site_name, application-name, first title
segment (split on " - " then " | "), first h1, logo text, with literal
default "Unknown Brand", trimmed and truncated to 255 characters; on a page
with og:site_name "Acme" and title "Acme - Home" it returns "Acme". -/
theorem extractBrandName_priority :
    (∀ p : ScrapedPage,
      extractBrandName p =
        jsSubstring (jsTrim (firstNonEmptyMatch
          [p.ogSiteName.getD "", p.applicationName.getD "",
           splitFirst (splitFirst p.title " - ") " | ",
           p.h1Text, p.logoText] "Unknown Brand")) 255)
    ∧ extractBrandName acmePage = "Acme" := by
  constructor
  · intro p
    simp only [extractBrandName]
    rw [jsOr_eq_firstTwo, jsOr_eq_firstTwo, jsOr_eq_firstTwo, jsOr_eq_firstTwo,
      jsOr_eq_firstTwo]
    rfl
  · decide

/-- C6: description extraction is the "first non-empty match wins" reduction
of the ordered candidate list description meta, og:description,
twitter:description, first paragraph, with literal default
"No description available", trimmed and truncated to 1000 characters; on a
page whose only source is a description meta tag "A great shop" it returns
exactly "A great shop". -/
theorem extractDescription_priority :
    (∀ p : ScrapedPage,
      extractDescription p =
        jsSubstring (jsTrim (firstNonEmptyMatch
          [p.descriptionMeta.getD "", p.ogDescription.getD "",
           p.twitterDescription.getD "", p.firstParagraph]
          "No description available")) 1000)
    ∧ extractDescription greatShopPage = "A great shop" := by
  constructor
  · intro p
    simp only [extractDescription]
    rw [jsOr_eq_firstTwo, jsOr_eq_firstTwo, jsOr_eq_firstTwo, jsOr_eq_firstTwo]
    rfl
  · decide

/-- C7: the extracted brand name is at most 255 characters, the extracted
description at most 1000, and both enhancement outputs (sanitized remote
response and local fallback) are at most 1000 characters, for every input. -/
theorem extraction_enhancement_length_bounds :
    (∀ p : ScrapedPage, (extractBrandName p).length ≤ 255)
    ∧ (∀ p : ScrapedPage, (extractDescription p).length ≤ 1000)
    ∧ (∀ s : String, (sanitizeEnhancedDescription s).length ≤ 1000)
    ∧ (∀ s : String, (fallbackEnhancement s).length ≤ 1000) := by
  refine ⟨fun p => ?_, fun p => ?_, fun s => ?_, fun s => ?_⟩
  · simp only [extractBrandName, jsSubstring, strMk_length, List.length_take]
    omega
  · simp only [extractDescription, jsSubstring, strMk_length, List.length_take]
    omega
  · simp only [sanitizeEnhancedDescription, strMk_length]
    exact limitTo1000_length_le _
  · unfold fallbackEnhancement
    split
    · decide
    · simp only [strMk_length]
      exact limitTo1000_length_le _

/-- C8: every ScrapeResult satisfies the shape invariant: on failure the
content fields are null and the error fields are populated; on success the
error fields are null. -/
theorem scrapeResult_shape_invariant :
    ∀ (env : ScrapeEnv) (url : String) (options : Option Bool),
      ((scrapeWebsiteInstance env url options).success = false →
        (scrapeWebsiteInstance env url options).brandName = none ∧
        (scrapeWebsiteInstance env url options).description = none ∧
        (scrapeWebsiteInstance env url options).rawDescription = none ∧
        ((scrapeWebsiteInstance env url options).error).isSome = true ∧
        ((scrapeWebsiteInstance env url options).errorCategory).isSome = true) ∧
      ((scrapeWebsiteInstance env url options).success = true →
        (scrapeWebsiteInstance env url options).error = none ∧
        (scrapeWebsiteInstance env url options).errorCategory = none) := by
  intro env url options
  unfold scrapeWebsiteInstance
  cases h : scrapeAttempt env url options with
  | error msg =>
    exact ⟨fun _ => ⟨rfl, rfl, rfl, rfl, rfl⟩, fun hs => by cases hs⟩
  | ok r =>
    obtain ⟨h1, h2, h3⟩ := scrapeAttempt_ok_fields h
    refine ⟨fun hs => ?_, fun _ => ⟨h2, h3⟩⟩
    rw [h1] at hs
    cases hs

/-- C4: for every input string rejected by the URL parser (or parsed with a
protocol other than http:/https:), the scrape returns the INVALID_URL
failure result; the result is the same for every launch and navigation
environment, so no browser is launched and no navigation is attempted. -/
theorem invalid_url_fails_fast :
    ∀ (env : ScrapeEnv) (url : String) (options : Option Bool),
      (∀ u, env.parseURL url = some u → u.protocol ≠ "http:" ∧ u.protocol ≠ "https:") →
      scrapeWebsiteInstance env url options =
        { url := url, brandName := none, description := none, rawDescription := none,
          enhanced := false, aiStats := none, success := false,
          error := some "Invalid URL format", errorCategory := some "INVALID_URL",
          originalError := some "Invalid URL format" } := by
  intro env url options h
  have hvalid : isValidUrl env.parseURL url = false := by
    unfold isValidUrl
    cases hp : env.parseURL url with
    | none => rfl
    | some u =>
      obtain ⟨h1, h2⟩ := h u hp
      simp [h1, h2]
  have hclass : classifyScrapeError "Invalid URL format" = ("INVALID_URL", "Invalid URL format") := by
    decide
  unfold scrapeWebsiteInstance scrapeAttempt
  rw [hvalid]
  simp [hclass]

/-- Witness for C4 at the concrete input "not a url" with a parser that
rejects it. -/
theorem invalid_url_fails_fast_witness :
    scrapeWebsiteInstance envInvalid "not a url" none =
      { url := "not a url", brandName := none, description := none, rawDescription := none,
        enhanced := false, aiStats := none, success := false,
        error := some "Invalid URL format", errorCategory := some "INVALID_URL",
        originalError := some "Invalid URL format" } :=
  invalid_url_fails_fast envInvalid "not a url" none
    (fun u hu => by simp [envInvalid, noParse] at hu)

/-- C1 (divergence record): the navigation loop is entered with
`retries = 1`, so the first navigation failure is thrown at once: on an
environment whose first `page.goto` fails with a transient timeout and whose
second attempt would succeed, the loop returns the first error without
consulting the second attempt, and the scrape fails with category TIMEOUT;
entering the same loop with `retries = 2` (the spec's one-retry policy)
would succeed. -/
theorem navigation_first_failure_surfaces :
    navigateWithRetry navFirstFails 0 1 =
      Except.error "Navigation timeout of 20000 ms exceeded"
    ∧ navFirstFails 1 = Except.ok emptyPage
    ∧ navigateWithRetry navFirstFails 0 2 = Except.ok emptyPage
    ∧ (scrapeWebsiteInstance envRetryProbe "https://example.com" none).success = false
    ∧ (scrapeWebsiteInstance envRetryProbe "https://example.com" none).errorCategory
        = some "TIMEOUT" := by
  refine ⟨rfl, rfl, rfl, ?_, ?_⟩ <;> decide

/-- C2 (counterexample): with the service enabled, a short raw text ("Hi")
is returned unchanged, which differs from the local cleanup
`fallbackEnhancement "Hi" = "Hi."`, refuting the claim that the short-input
short-circuit returns the fallbackEnhancement result for every value of the
enabled flag. -/
theorem short_input_returns_raw_counterexample :
    enhanceDescription { enabled := true, remote := Except.ok "REMOTE RESPONSE" } "Hi" "" "" = "Hi"
    ∧ fallbackEnhancement "Hi" = "Hi."
    ∧ ("Hi" : String) ≠ "Hi." := by
  refine ⟨by decide, ?_, by decide⟩
  simp [fallbackEnhancement, jsTrimList, removeHtmlTags, collapseWhitespace, fixPunctSpacing,
    capitalizeFirst, endsWithPunct, limitTo1000, isJsWs, isPunct, isLowerAZ, afterGt]

/-- C2 (amended): a remote call is never attempted on short input (the
result does not depend on the remote outcome), but only the disabled path
returns the fallbackEnhancement result; the enabled path returns the raw
input unchanged (or the literal "No description available" when absent). -/
theorem short_input_short_circuit :
    ∀ (remote : Except String String) (rawText brandName url : String),
      (jsTrim rawText).length < 10 →
        enhanceDescription { enabled := true, remote := remote } rawText brandName url =
          (if rawText = "" then "No description available" else rawText)
        ∧ enhanceDescription { enabled := false, remote := remote } rawText brandName url =
            fallbackEnhancement rawText := by
  intro remote rawText brandName url h
  constructor
  · simp [enhanceDescription, h]
  · simp [enhanceDescription]

/-- Witness for C2's amended claim at the concrete short input "Hi". -/
theorem short_input_short_circuit_witness :
    (jsTrim "Hi").length < 10
    ∧ enhanceDescription { enabled := true, remote := Except.ok "REMOTE" } "Hi" "" "" = "Hi"
    ∧ enhanceDescription { enabled := false, remote := Except.ok "REMOTE" } "Hi" "" ""
        = fallbackEnhancement "Hi" :=
  ⟨by decide,
   by simpa using (short_input_short_circuit (Except.ok "REMOTE") "Hi" "" "" (by decide)).1,
   (short_input_short_circuit (Except.ok "REMOTE") "Hi" "" "" (by decide)).2⟩

/-- C3: when extraction succeeds, a failing remote enhancement call (thrown
error, e.g. a quota error, or an empty response) is absorbed: the
enhancement returns the non-empty local fallback, and the scrape result
still has `success = true` with no error populated. -/
theorem enhancement_failure_absorbed :
    ∀ (env : ScrapeEnv) (url raw brand u : String) (options : Option Bool)
      (page : ScrapedPage),
      env.ai.enabled = true →
      raw ≠ "" →
      10 ≤ (jsTrim raw).length →
      (∀ t, env.ai.remote = Except.ok t → jsTrim t = "") →
      isValidUrl env.parseURL url = true →
      env.launch = Except.ok () →
      navigateWithRetry env.nav 0 1 = Except.ok page →
        enhanceDescription env.ai raw brand u = fallbackEnhancement raw
        ∧ fallbackEnhancement raw ≠ ""
        ∧ (scrapeWebsiteInstance env url options).success = true
        ∧ (scrapeWebsiteInstance env url options).error = none := by
  intro env url raw brand u options page hen hraw hlen hrem hvalid hlaunch hnav
  refine ⟨?_, fallbackEnhancement_ne_empty raw, ?_, ?_⟩
  · unfold enhanceDescription
    rw [hen]
    simp only [Bool.not_true, Bool.false_eq_true, if_false]
    rw [if_neg (by simp [hraw]; omega)]
    cases hr : env.ai.remote with
    | error e => rfl
    | ok t =>
      have := hrem t hr
      simp [this]
  all_goals
    unfold scrapeWebsiteInstance scrapeAttempt
    rw [hvalid, hlaunch, hnav]
    rfl

/-- Witness for C3: a concrete environment whose AI call fails with a quota
error while the page loads fine. -/
theorem enhancement_failure_absorbed_witness :
    enhanceDescription envQuota.ai "A fine shop with many goods" "" ""
      = fallbackEnhancement "A fine shop with many goods"
    ∧ fallbackEnhancement "A fine shop with many goods" ≠ ""
    ∧ (scrapeWebsiteInstance envQuota "https://example.com" none).success = true
    ∧ (scrapeWebsiteInstance envQuota "https://example.com" none).error = none :=
  enhancement_failure_absorbed envQuota "https://example.com"
    "A fine shop with many goods" "" "" none emptyPage rfl (by decide) (by decide)
    (fun t ht => by simp [envQuota] at ht) (by decide) rfl rfl

/-! Character-level lemmas about `Char.toUpper` and the character classes. -/

theorem char_eq_iff_toNat {a b : Char} : a = b ↔ a.toNat = b.toNat :=
  ⟨fun h => h ▸ rfl, fun h => by rw [← Char.ofNat_toNat a, h, Char.ofNat_toNat]⟩

theorem charOfNat_toNat {k : Nat} (h : k < 55296) : (Char.ofNat k).toNat = k := by
  have hv : k.isValidChar := Or.inl h
  unfold Char.ofNat
  rw [dif_pos hv]
  rfl

theorem toUpper_toNat (c : Char) :
    c.toUpper.toNat = if 97 ≤ c.toNat ∧ c.toNat ≤ 122 then c.toNat - 32 else c.toNat := by
  by_cases h : 97 ≤ c.toNat ∧ c.toNat ≤ 122
  · unfold Char.toUpper
    rw [if_pos h, if_pos h]
    exact charOfNat_toNat (by omega)
  · unfold Char.toUpper
    rw [if_neg h, if_neg h]

theorem toUpper_of_not_lower {c : Char} (h : ¬(97 ≤ c.toNat ∧ c.toNat ≤ 122)) :
    c.toUpper = c := by
  unfold Char.toUpper
  rw [if_neg h]

theorem toUpper_toUpper (c : Char) : c.toUpper.toUpper = c.toUpper := by
  by_cases h : 97 ≤ c.toNat ∧ c.toNat ≤ 122
  · apply toUpper_of_not_lower
    rw [toUpper_toNat, if_pos h]
    omega
  · rw [toUpper_of_not_lower h, toUpper_of_not_lower h]

theorem isPunct_toNat (c : Char) :
    isPunct c = (decide (c.toNat = 46) || decide (c.toNat = 33) || decide (c.toNat = 63)) := by
  simp only [isPunct]
  rw [Bool.eq_iff_iff]
  simp only [Bool.or_eq_true, decide_eq_true_eq]
  constructor
  · rintro ((rfl | rfl) | rfl) <;> simp
  · rintro ((h | h) | h)
    · exact Or.inl (Or.inl (char_eq_iff_toNat.mpr (by rw [h]; rfl)))
    · exact Or.inl (Or.inr (char_eq_iff_toNat.mpr (by rw [h]; rfl)))
    · exact Or.inr (char_eq_iff_toNat.mpr (by rw [h]; rfl))

theorem isJsWs_toUpper (c : Char) : isJsWs c.toUpper = isJsWs c := by
  simp only [isJsWs, toUpper_toNat]
  split
  · rename_i h
    rw [Bool.eq_iff_iff]
    simp only [Bool.or_eq_true, decide_eq_true_eq]
    omega
  · rfl

theorem isPunct_toUpper (c : Char) : isPunct c.toUpper = isPunct c := by
  rw [isPunct_toNat, isPunct_toNat, toUpper_toNat]
  split
  · rename_i h
    rw [Bool.eq_iff_iff]
    simp only [Bool.or_eq_true, decide_eq_true_eq]
    omega
  · rfl

theorem toUpper_eq_lt_iff (c : Char) : (c.toUpper = '<') ↔ (c = '<') := by
  rw [char_eq_iff_toNat, char_eq_iff_toNat]
  have h60 : ('<' : Char).toNat = 60 := rfl
  rw [h60, toUpper_toNat]
  split
  · rename_i h
    omega
  · exact Iff.rfl

theorem not_punct_of_ws {c : Char} (h : isJsWs c = true) : isPunct c = false := by
  simp only [isJsWs, Bool.or_eq_true, decide_eq_true_eq] at h
  rw [isPunct_toNat]
  simp only [Bool.or_eq_false_iff, decide_eq_false_iff_not]
  omega

theorem not_ws_of_punct {c : Char} (h : isPunct c = true) : isJsWs c = false := by
  rw [isPunct_toNat] at h
  simp only [Bool.or_eq_true, decide_eq_true_eq] at h
  simp only [isJsWs, Bool.or_eq_false_iff, decide_eq_false_iff_not]
  omega

theorem not_ws_of_lower {c : Char} (h : isLowerAZ c = true) : isJsWs c = false := by
  simp only [isLowerAZ, Bool.and_eq_true, decide_eq_true_eq] at h
  simp only [isJsWs, Bool.or_eq_false_iff, decide_eq_false_iff_not]
  omega

theorem toUpper_space : (' ' : Char).toUpper = ' ' := by decide

/-! Controlled equation lemmas for the recursive text transformations. -/

theorem fixPunctSpacing_nil : fixPunctSpacing [] = [] := by
  rw [fixPunctSpacing.eq_def]

theorem fixPunctSpacing_cons_not_punct {c : Char} {rest : List Char}
    (h : isPunct c = false) :
    fixPunctSpacing (c :: rest) = c :: fixPunctSpacing rest := by
  rw [fixPunctSpacing.eq_def]
  simp [h]

theorem fixPunctSpacing_cons_punct_lower {c d : Char} {rest rest₂ : List Char}
    (hc : isPunct c = true) (h : rest.dropWhile isJsWs = d :: rest₂)
    (hd : isLowerAZ d = true) :
    fixPunctSpacing (c :: rest) = c :: ' ' :: d :: fixPunctSpacing rest₂ := by
  rw [fixPunctSpacing.eq_def]
  simp only [hc, if_true]
  split
  · rename_i d' rest₂' heq
    rw [h] at heq
    injection heq with h1 h2
    subst h1
    subst h2
    simp [hd]
  · rename_i heq
    rw [h] at heq
    cases heq

theorem fixPunctSpacing_cons_punct_not_lower {c d : Char} {rest rest₂ : List Char}
    (hc : isPunct c = true) (h : rest.dropWhile isJsWs = d :: rest₂)
    (hd : isLowerAZ d = false) :
    fixPunctSpacing (c :: rest) = c :: fixPunctSpacing rest := by
  rw [fixPunctSpacing.eq_def]
  simp only [hc, if_true]
  split
  · rename_i d' rest₂' heq
    rw [h] at heq
    injection heq with h1 h2
    subst h1
    subst h2
    simp [hd]
  · rfl

theorem fixPunctSpacing_cons_punct_all_ws {c : Char} {rest : List Char}
    (hc : isPunct c = true) (h : rest.dropWhile isJsWs = []) :
    fixPunctSpacing (c :: rest) = c :: fixPunctSpacing rest := by
  rw [fixPunctSpacing.eq_def]
  simp only [hc, if_true]
  split
  · rename_i d' rest₂' heq
    rw [h] at heq
    cases heq
  · rfl

theorem okF_nil : okF [] = true := by
  rw [okF.eq_def]

theorem okF_cons_not_punct {c : Char} {rest : List Char} (h : isPunct c = false) :
    okF (c :: rest) = okF rest := by
  rw [okF.eq_def]
  simp [h]

theorem okF_cons_punct_lower {c d : Char} {rest rest₂ : List Char}
    (hc : isPunct c = true) (h : rest.dropWhile isJsWs = d :: rest₂)
    (hd : isLowerAZ d = true) :
    okF (c :: rest) = (decide (rest = ' ' :: d :: rest₂) && okF rest₂) := by
  rw [okF.eq_def]
  simp only [hc, if_true]
  split
  · rename_i d' rest₂' heq
    rw [h] at heq
    injection heq with h1 h2
    subst h1
    subst h2
    simp [hd]
  · rename_i heq
    rw [h] at heq
    cases heq

theorem okF_cons_punct_not_lower {c d : Char} {rest rest₂ : List Char}
    (hc : isPunct c = true) (h : rest.dropWhile isJsWs = d :: rest₂)
    (hd : isLowerAZ d = false) :
    okF (c :: rest) = okF rest := by
  rw [okF.eq_def]
  simp only [hc, if_true]
  split
  · rename_i d' rest₂' heq
    rw [h] at heq
    injection heq with h1 h2
    subst h1
    subst h2
    simp [hd]
  · rfl

theorem okF_cons_punct_all_ws {c : Char} {rest : List Char}
    (hc : isPunct c = true) (h : rest.dropWhile isJsWs = []) :
    okF (c :: rest) = okF rest := by
  rw [okF.eq_def]
  simp only [hc, if_true]
  split
  · rename_i d' rest₂' heq
    rw [h] at heq
    cases heq
  · rfl

/-! Structural lemmas about the text transformations. -/

theorem getLast?_cons_of_ne_nil {a : Char} {l : List Char} (h : l ≠ []) :
    (a :: l).getLast? = l.getLast? := by
  cases l with
  | nil => exact absurd rfl h
  | cons b t => exact List.getLast?_cons_cons

theorem fixPunctSpacing_cons_shape (c : Char) (rest : List Char) :
    ∃ t, fixPunctSpacing (c :: rest) = c :: t := by
  by_cases hp : isPunct c = true
  · cases hdw : rest.dropWhile isJsWs with
    | nil => exact ⟨_, fixPunctSpacing_cons_punct_all_ws hp hdw⟩
    | cons d r2 =>
      by_cases hd : isLowerAZ d = true
      · exact ⟨_, fixPunctSpacing_cons_punct_lower hp hdw hd⟩
      · rw [Bool.not_eq_true] at hd
        exact ⟨_, fixPunctSpacing_cons_punct_not_lower hp hdw hd⟩
  · rw [Bool.not_eq_true] at hp
    exact ⟨_, fixPunctSpacing_cons_not_punct hp⟩

theorem dropWhile_cons_decomp {rest : List Char} {d : Char} {rest₂ : List Char}
    (hdw : rest.dropWhile isJsWs = d :: rest₂) :
    rest.takeWhile isJsWs ++ d :: rest₂ = rest ∧ isJsWs d = false ∧
      rest₂.length + 1 ≤ rest.length := by
  refine ⟨?_, ?_, ?_⟩
  · rw [← hdw]
    exact List.takeWhile_append_dropWhile isJsWs rest
  · have := List.head?_dropWhile_not isJsWs rest
    rw [hdw] at this
    simpa using this
  · have h1 : (rest.dropWhile isJsWs).length ≤ rest.length :=
      (List.dropWhile_sublist _).length_le
    rw [hdw] at h1
    simpa using h1

theorem fixPunctSpacing_getLast? : ∀ l : List Char,
    (fixPunctSpacing l).getLast? = l.getLast? := by
  have H : ∀ n, ∀ l : List Char, l.length ≤ n →
      (fixPunctSpacing l).getLast? = l.getLast? := by
    intro n
    induction n with
    | zero =>
      intro l hl
      have hnil : l = [] := List.length_eq_zero.mp (Nat.le_zero.mp hl)
      subst hnil
      rw [fixPunctSpacing_nil]
    | succ n ih =>
      intro l hl
      match l with
      | [] => rw [fixPunctSpacing_nil]
      | c :: rest =>
        have hrest : rest.length ≤ n := by
          simp only [List.length_cons] at hl
          omega
        have common : (c :: fixPunctSpacing rest).getLast? = (c :: rest).getLast? := by
          cases hr : rest with
          | nil => rw [fixPunctSpacing_nil]
          | cons a t =>
            obtain ⟨t', ht'⟩ := fixPunctSpacing_cons_shape a t
            rw [ht', getLast?_cons_of_ne_nil (List.cons_ne_nil a t'),
              getLast?_cons_of_ne_nil (List.cons_ne_nil a t), ← ht']
            exact ih (a :: t) (hr ▸ hrest)
        by_cases hp : isPunct c = true
        · cases hdw : rest.dropWhile isJsWs with
          | nil => rw [fixPunctSpacing_cons_punct_all_ws hp hdw]; exact common
          | cons d rest₂ =>
            obtain ⟨hsplit, hdns, hlen⟩ := dropWhile_cons_decomp hdw
            by_cases hd : isLowerAZ d = true
            · rw [fixPunctSpacing_cons_punct_lower hp hdw hd]
              have inner : (d :: fixPunctSpacing rest₂).getLast? = (d :: rest₂).getLast? := by
                cases hr2 : rest₂ with
                | nil => rw [fixPunctSpacing_nil]
                | cons a t =>
                  obtain ⟨t', ht'⟩ := fixPunctSpacing_cons_shape a t
                  rw [ht', getLast?_cons_of_ne_nil (List.cons_ne_nil a t'),
                    getLast?_cons_of_ne_nil (List.cons_ne_nil a t), ← ht']
                  exact ih (a :: t) (by rw [← hr2]; omega)
              have hright : (c :: rest).getLast? = (d :: rest₂).getLast? := by
                rw [← hsplit]
                rw [getLast?_cons_of_ne_nil (by simp), List.getLast?_append]
                obtain ⟨w, hw⟩ : ∃ w, (d :: rest₂).getLast? = some w := by
                  cases hgl : (d :: rest₂).getLast? with
                  | none => simp [List.getLast?_eq_none_iff] at hgl
                  | some w => exact ⟨w, rfl⟩
                rw [hw]
                rfl
              rw [List.getLast?_cons_cons, List.getLast?_cons_cons, inner, hright]
            · rw [Bool.not_eq_true] at hd
              rw [fixPunctSpacing_cons_punct_not_lower hp hdw hd]
              exact common
        · rw [Bool.not_eq_true] at hp
          rw [fixPunctSpacing_cons_not_punct hp]
          exact common
  exact fun l => H l.length l le_rfl

theorem mem_fixPunctSpacing : ∀ {l : List Char} {a : Char},
    a ∈ fixPunctSpacing l → a ∈ l ∨ a = ' ' := by
  have H : ∀ n, ∀ l : List Char, l.length ≤ n → ∀ a,
      a ∈ fixPunctSpacing l → a ∈ l ∨ a = ' ' := by
    intro n
    induction n with
    | zero =>
      intro l hl a ha
      have hnil : l = [] := List.length_eq_zero.mp (Nat.le_zero.mp hl)
      subst hnil
      rw [fixPunctSpacing_nil] at ha
      cases ha
    | succ n ih =>
      intro l hl a ha
      match l with
      | [] => rw [fixPunctSpacing_nil] at ha; cases ha
      | c :: rest =>
        have hrest : rest.length ≤ n := by
          simp only [List.length_cons] at hl
          omega
        have common : a ∈ c :: fixPunctSpacing rest → a ∈ c :: rest ∨ a = ' ' := by
          intro hmem
          rcases List.mem_cons.mp hmem with rfl | hmem
          · exact Or.inl (List.mem_cons_self _ _)
          · rcases ih rest hrest a hmem with h | h
            · exact Or.inl (List.mem_cons_of_mem _ h)
            · exact Or.inr h
        by_cases hp : isPunct c = true
        · cases hdw : rest.dropWhile isJsWs with
          | nil =>
            rw [fixPunctSpacing_cons_punct_all_ws hp hdw] at ha
            exact common ha
          | cons d rest₂ =>
            obtain ⟨hsplit, hdns, hlen⟩ := dropWhile_cons_decomp hdw
            by_cases hd : isLowerAZ d = true
            · rw [fixPunctSpacing_cons_punct_lower hp hdw hd] at ha
              have hdmem : d ∈ rest := by
                rw [← hsplit]
                simp
              have hr2sub : rest₂ ⊆ rest := by
                intro b hb
                rw [← hsplit]
                simp [hb]
              rcases List.mem_cons.mp ha with rfl | ha
              · exact Or.inl (List.mem_cons_self _ _)
              · rcases List.mem_cons.mp ha with rfl | ha
                · exact Or.inr rfl
                · rcases List.mem_cons.mp ha with rfl | ha
                  · exact Or.inl (List.mem_cons_of_mem _ hdmem)
                  · rcases ih rest₂ (by omega) a ha with h | h
                    · exact Or.inl (List.mem_cons_of_mem _ (hr2sub h))
                    · exact Or.inr h
            · rw [Bool.not_eq_true] at hd
              rw [fixPunctSpacing_cons_punct_not_lower hp hdw hd] at ha
              exact common ha
        · rw [Bool.not_eq_true] at hp
          rw [fixPunctSpacing_cons_not_punct hp] at ha
          exact common ha
  exact fun {l a} ha => H l.length l le_rfl a ha

theorem fixPunctSpacing_no_punct : ∀ {l : List Char},
    (∀ a ∈ l, isPunct a = false) → fixPunctSpacing l = l := by
  intro l
  induction l with
  | nil => intro _; rw [fixPunctSpacing_nil]
  | cons c rest ih =>
    intro h
    rw [fixPunctSpacing_cons_not_punct (h c (List.mem_cons_self _ _)),
      ih (fun a ha => h a (List.mem_cons_of_mem _ ha))]

theorem fixPunctSpacing_ws_front : ∀ {w : List Char} {m : List Char},
    (∀ a ∈ w, isJsWs a = true) → fixPunctSpacing (w ++ m) = w ++ fixPunctSpacing m := by
  intro w
  induction w with
  | nil => intro m _; rfl
  | cons c t ih =>
    intro m h
    have hc : isPunct c = false := not_punct_of_ws (h c (List.mem_cons_self _ _))
    rw [List.cons_append, fixPunctSpacing_cons_not_punct hc,
      ih (fun a ha => h a (List.mem_cons_of_mem _ ha)), List.cons_append]

theorem okF_cons_no_punct_front : ∀ {p : List Char} {t : List Char},
    (∀ a ∈ p, isPunct a = false) → okF (p ++ t) = okF t := by
  intro p
  induction p with
  | nil => intro t _; rfl
  | cons c q ih =>
    intro t h
    rw [List.cons_append, okF_cons_not_punct (h c (List.mem_cons_self _ _)),
      ih (fun a ha => h a (List.mem_cons_of_mem _ ha))]

theorem okF_no_punct {l : List Char} (h : ∀ a ∈ l, isPunct a = false) : okF l = true := by
  have := okF_cons_no_punct_front (t := []) h
  rw [List.append_nil] at this
  rw [this, okF_nil]

theorem collapseWhitespace_nil : collapseWhitespace [] = [] := by
  rw [collapseWhitespace.eq_def]

theorem collapseWhitespace_cons_ws {c : Char} {rest : List Char} (h : isJsWs c = true) :
    collapseWhitespace (c :: rest) = ' ' :: collapseWhitespace (rest.dropWhile isJsWs) := by
  rw [collapseWhitespace.eq_def]
  simp [h]

theorem collapseWhitespace_cons_not_ws {c : Char} {rest : List Char} (h : isJsWs c = false) :
    collapseWhitespace (c :: rest) = c :: collapseWhitespace rest := by
  rw [collapseWhitespace.eq_def]
  simp [h]

theorem noAdjWs_cons_eq (c : Char) (rest : List Char) :
    noAdjWs (c :: rest) =
      ((match rest.head? with
        | some d => !(isJsWs c && isJsWs d)
        | none => true) && noAdjWs rest) := rfl

theorem noAdjWs_tail {c : Char} {rest : List Char} (h : noAdjWs (c :: rest) = true) :
    noAdjWs rest = true := by
  rw [noAdjWs_cons_eq, Bool.and_eq_true] at h
  exact h.2

theorem noAdjWs_pair {c d : Char} {rest : List Char} (h : noAdjWs (c :: rest) = true)
    (hd : rest.head? = some d) (hc : isJsWs c = true) : isJsWs d = false := by
  rw [noAdjWs_cons_eq, Bool.and_eq_true] at h
  have h1 := h.1
  rw [hd] at h1
  simp only [Bool.not_eq_true', Bool.and_eq_false_iff] at h1
  rcases h1 with h1 | h1
  · rw [hc] at h1; cases h1
  · exact h1

theorem noAdjWs_dropWhile {l : List Char} (p : Char → Bool) (h : noAdjWs l = true) :
    noAdjWs (l.dropWhile p) = true := by
  induction l with
  | nil => exact h
  | cons c rest ih =>
    by_cases hp : p c = true
    · rw [List.dropWhile_cons_of_pos hp]
      exact ih (noAdjWs_tail h)
    · rw [List.dropWhile_cons_of_neg (by simp [hp])]
      exact h

theorem collapseWhitespace_of_norm : ∀ {l : List Char},
    wsOnlySpace l = true → noAdjWs l = true → collapseWhitespace l = l := by
  intro l
  induction l with
  | nil => intro _ _; rw [collapseWhitespace_nil]
  | cons c rest ih =>
    intro hws hadj
    have hws_rest : wsOnlySpace rest = true := by
      simp only [wsOnlySpace, List.all_cons, Bool.and_eq_true] at hws
      exact hws.2
    have hc_pred : (!isJsWs c || c = ' ') = true := by
      simp only [wsOnlySpace, List.all_cons, Bool.and_eq_true] at hws
      simpa using hws.1
    by_cases hc : isJsWs c = true
    · have hcsp : c = ' ' := by
        rw [hc] at hc_pred
        simpa using hc_pred
      have hdrop : rest.dropWhile isJsWs = rest := by
        cases hr : rest with
        | nil => rfl
        | cons d t =>
          have hd : isJsWs d = false := noAdjWs_pair hadj (by rw [hr]; rfl) hc
          rw [List.dropWhile_cons_of_neg (by simp [hd])]
      rw [collapseWhitespace_cons_ws hc, hdrop, ih hws_rest (noAdjWs_tail hadj), hcsp]
    · rw [Bool.not_eq_true] at hc
      rw [collapseWhitespace_cons_not_ws hc, ih hws_rest (noAdjWs_tail hadj)]

theorem removeHtmlTags_of_no_lt : ∀ {l : List Char},
    (∀ a ∈ l, (a = '<') = False) → removeHtmlTags l = l := by
  intro l
  induction l with
  | nil => intro _; rw [removeHtmlTags.eq_def]
  | cons c rest ih =>
    intro h
    have hc : (c = '<') = False := h c (List.mem_cons_self _ _)
    have hcond : (c = '<' && rest.contains '>') = false := by
      have : ¬(c = '<') := by rw [hc]; exact id
      simp [this]
    rw [removeHtmlTags.eq_def]
    simp only [hcond, Bool.false_eq_true, if_false]
    rw [ih (fun a ha => h a (List.mem_cons_of_mem _ ha))]

theorem jsTrimList_eq_self {l : List Char} (h1 : noLeadWs l = true)
    (h2 : noTrailWs l = true) : jsTrimList l = l := by
  unfold jsTrimList
  have hfront : l.dropWhile isJsWs = l := by
    cases l with
    | nil => rfl
    | cons c rest =>
      have : isJsWs c = false := by simpa [noLeadWs] using h1
      rw [List.dropWhile_cons_of_neg (by simp [this])]
  rw [hfront]
  have hback : l.reverse.dropWhile isJsWs = l.reverse := by
    cases hr : l.reverse with
    | nil => rfl
    | cons c rest =>
      have hhead : l.reverse.head? = some c := by rw [hr]; rfl
      rw [List.head?_reverse] at hhead
      have : isJsWs c = false := by
        unfold noTrailWs at h2
        rw [hhead] at h2
        simpa using h2
      rw [List.dropWhile_cons_of_neg (by simp [this])]
  rw [hback, List.reverse_reverse]

theorem noTrailWs_of_endsPunct {l : List Char} (h : endsWithPunct l = true) :
    noTrailWs l = true := by
  unfold endsWithPunct at h
  unfold noTrailWs
  cases hgl : l.getLast? with
  | none => rfl
  | some c =>
    rw [hgl] at h
    simp [not_ws_of_punct h]

theorem endsWithPunct_fixPunctSpacing (l : List Char) :
    endsWithPunct (fixPunctSpacing l) = endsWithPunct l := by
  unfold endsWithPunct
  rw [fixPunctSpacing_getLast?]

theorem endsWithPunct_capitalizeFirst (l : List Char) :
    endsWithPunct (capitalizeFirst l) = endsWithPunct l := by
  match l with
  | [] => rfl
  | [c] =>
    simp only [capitalizeFirst, endsWithPunct, List.getLast?_singleton]
    exact isPunct_toUpper c
  | c :: d :: rest =>
    simp only [capitalizeFirst, endsWithPunct, List.getLast?_cons_cons]

theorem endsWithPunct_limitTo1000 {l : List Char} (h : endsWithPunct l = true) :
    endsWithPunct (limitTo1000 l) = true := by
  unfold limitTo1000
  split
  · unfold endsWithPunct
    rw [List.getLast?_append]
    rfl
  · exact h

theorem limitTo1000_of_le {l : List Char} (h : l.length ≤ 1000) : limitTo1000 l = l := by
  unfold limitTo1000
  rw [if_neg (by omega)]

theorem noAdjWs_fixPunctSpacing : ∀ l : List Char,
    noAdjWs l = true → noAdjWs (fixPunctSpacing l) = true := by
  have H : ∀ n, ∀ l : List Char, l.length ≤ n →
      noAdjWs l = true → noAdjWs (fixPunctSpacing l) = true := by
    intro n
    induction n with
    | zero =>
      intro l hl _
      have hnil : l = [] := List.length_eq_zero.mp (Nat.le_zero.mp hl)
      subst hnil
      rw [fixPunctSpacing_nil]
      rfl
    | succ n ih =>
      intro l hl h
      match l with
      | [] => rw [fixPunctSpacing_nil]; rfl
      | c :: rest =>
        have hrest : rest.length ≤ n := by
          simp only [List.length_cons] at hl
          omega
        have common : noAdjWs (c :: fixPunctSpacing rest) = true := by
          rw [noAdjWs_cons_eq, Bool.and_eq_true]
          refine ⟨?_, ih rest hrest (noAdjWs_tail h)⟩
          cases hr : rest with
          | nil => rw [fixPunctSpacing_nil]; rfl
          | cons a t =>
            obtain ⟨t', ht'⟩ := fixPunctSpacing_cons_shape a t
            rw [ht']
            have h' := h
            rw [hr, noAdjWs_cons_eq, Bool.and_eq_true] at h'
            simpa using h'.1
        by_cases hp : isPunct c = true
        · cases hdw : rest.dropWhile isJsWs with
          | nil => rw [fixPunctSpacing_cons_punct_all_ws hp hdw]; exact common
          | cons d rest₂ =>
            obtain ⟨hsplit, hdns, hlen⟩ := dropWhile_cons_decomp hdw
            by_cases hd : isLowerAZ d = true
            · rw [fixPunctSpacing_cons_punct_lower hp hdw hd]
              have hwc : isJsWs c = false := not_ws_of_punct hp
              have hwd : isJsWs d = false := not_ws_of_lower hd
              have hr2 : noAdjWs rest₂ = true := by
                have h1 := noAdjWs_dropWhile isJsWs (noAdjWs_tail h)
                rw [hdw] at h1
                exact noAdjWs_tail h1
              have hfix : noAdjWs (fixPunctSpacing rest₂) = true := ih rest₂ (by omega) hr2
              rw [noAdjWs_cons_eq, noAdjWs_cons_eq, noAdjWs_cons_eq]
              cases hfr : (fixPunctSpacing rest₂).head? <;>
                simp [hwc, hwd, hfix, hfr, List.head?_cons]
            · rw [Bool.not_eq_true] at hd
              rw [fixPunctSpacing_cons_punct_not_lower hp hdw hd]
              exact common
        · rw [Bool.not_eq_true] at hp
          rw [fixPunctSpacing_cons_not_punct hp]
          exact common
  exact fun l => H l.length l le_rfl

theorem noAdjWs_capitalizeFirst {l : List Char} (h : noAdjWs l = true) :
    noAdjWs (capitalizeFirst l) = true := by
  cases l with
  | nil => exact h
  | cons c rest =>
    show noAdjWs (c.toUpper :: rest) = true
    rw [noAdjWs_cons_eq, Bool.and_eq_true]
    rw [noAdjWs_cons_eq, Bool.and_eq_true] at h
    refine ⟨?_, h.2⟩
    have h1 := h.1
    cases hh : rest.head? with
    | none => rfl
    | some d =>
      rw [hh] at h1
      have h1' : (!(isJsWs c && isJsWs d)) = true := h1
      show (!(isJsWs c.toUpper && isJsWs d)) = true
      rw [isJsWs_toUpper]
      exact h1'

theorem head?_take_eq {l : List Char} {k : Nat} {d : Char}
    (h : (l.take k).head? = some d) : l.head? = some d := by
  cases l with
  | nil => simp at h
  | cons c t =>
    cases k with
    | zero => simp at h
    | succ k =>
      rw [List.take_succ_cons] at h
      simpa using h

theorem noAdjWs_take {l : List Char} (n : Nat) (h : noAdjWs l = true) :
    noAdjWs (l.take n) = true := by
  induction l generalizing n with
  | nil => rw [List.take_nil]; rfl
  | cons c rest ih =>
    cases n with
    | zero => rfl
    | succ k =>
      rw [List.take_succ_cons, noAdjWs_cons_eq, Bool.and_eq_true]
      refine ⟨?_, ih k (noAdjWs_tail h)⟩
      cases hh : (rest.take k).head? with
      | none => rfl
      | some d =>
        have hd' : rest.head? = some d := head?_take_eq hh
        have h' := h
        rw [noAdjWs_cons_eq, Bool.and_eq_true] at h'
        have h1 := h'.1
        rw [hd'] at h1
        exact h1

theorem noAdjWs_of_all_non_ws {l : List Char} (h : ∀ a ∈ l, isJsWs a = false) :
    noAdjWs l = true := by
  induction l with
  | nil => rfl
  | cons c rest ih =>
    rw [noAdjWs_cons_eq, Bool.and_eq_true]
    refine ⟨?_, ih fun a ha => h a (List.mem_cons_of_mem _ ha)⟩
    cases hh : rest.head? with
    | none => rfl
    | some d => simp [h c (List.mem_cons_self _ _)]

theorem noAdjWs_append_non_ws {m m2 : List Char} (h : noAdjWs m = true)
    (h2 : ∀ a ∈ m2, isJsWs a = false) : noAdjWs (m ++ m2) = true := by
  induction m with
  | nil => exact noAdjWs_of_all_non_ws h2
  | cons c rest ih =>
    rw [List.cons_append, noAdjWs_cons_eq, Bool.and_eq_true]
    refine ⟨?_, ih (noAdjWs_tail h)⟩
    cases rest with
    | nil =>
      rw [List.nil_append]
      cases hh : m2.head? with
      | none => rfl
      | some d =>
        have hdm : d ∈ m2 := by
          cases m2 with
          | nil => simp at hh
          | cons e t =>
            simp only [List.head?_cons, Option.some.injEq] at hh
            subst hh
            exact List.mem_cons_self _ _
        simp [h2 d hdm]
    | cons a t =>
      have h' := h
      rw [noAdjWs_cons_eq, Bool.and_eq_true] at h'
      simpa using h'.1

theorem wsOnlySpace_fixPunctSpacing {l : List Char} (h : wsOnlySpace l = true) :
    wsOnlySpace (fixPunctSpacing l) = true := by
  simp only [wsOnlySpace, List.all_eq_true] at h ⊢
  intro a ha
  rcases mem_fixPunctSpacing ha with hm | rfl
  · exact h a hm
  · simp

theorem wsOnlySpace_capitalizeFirst {l : List Char} (h : wsOnlySpace l = true) :
    wsOnlySpace (capitalizeFirst l) = true := by
  cases l with
  | nil => exact h
  | cons c rest =>
    show wsOnlySpace (c.toUpper :: rest) = true
    simp only [wsOnlySpace, List.all_cons, Bool.and_eq_true] at h ⊢
    refine ⟨?_, h.2⟩
    have h1 := h.1
    by_cases hc : isJsWs c = true
    · have hcsp : c = ' ' := by
        rw [hc] at h1
        simpa using h1
      subst hcsp
      rw [toUpper_space]
      simp
    · rw [Bool.not_eq_true] at hc
      have : isJsWs c.toUpper = false := by rw [isJsWs_toUpper]; exact hc
      simp [this]

theorem wsOnlySpace_take {l : List Char} (n : Nat) (h : wsOnlySpace l = true) :
    wsOnlySpace (l.take n) = true := by
  simp only [wsOnlySpace, List.all_eq_true] at h ⊢
  exact fun a ha => h a (List.take_subset n l ha)

theorem wsOnlySpace_append {m m2 : List Char} (h : wsOnlySpace m = true)
    (h2 : wsOnlySpace m2 = true) : wsOnlySpace (m ++ m2) = true := by
  simp only [wsOnlySpace, List.all_append, Bool.and_eq_true]
  exact ⟨h, h2⟩

theorem limitTo1000_cons_shape (c : Char) (t : List Char) :
    ∃ t2, limitTo1000 (c :: t) = c :: t2 := by
  unfold limitTo1000
  split
  · exact ⟨_, by rw [List.take_cons (by omega), List.cons_append]⟩
  · exact ⟨t, rfl⟩

theorem toUpper_of_punct {c : Char} (h : isPunct c = true) : c.toUpper = c := by
  apply toUpper_of_not_lower
  rw [isPunct_toNat] at h
  simp only [Bool.or_eq_true, decide_eq_true_eq] at h
  omega

theorem okF_capitalizeFirst {l : List Char} (h : okF l = true) :
    okF (capitalizeFirst l) = true := by
  cases l with
  | nil => exact h
  | cons c rest =>
    show okF (c.toUpper :: rest) = true
    by_cases hp : isPunct c = true
    · rw [toUpper_of_punct hp]
      exact h
    · rw [Bool.not_eq_true] at hp
      have hp2 : isPunct c.toUpper = false := by rw [isPunct_toUpper]; exact hp
      rw [okF_cons_not_punct hp2]
      rw [okF_cons_not_punct hp] at h
      exact h

theorem okF_dots : okF ['.', '.', '.'] = true := by
  have hp : isPunct '.' = true := by decide
  have hl : isLowerAZ '.' = false := by decide
  rw [@okF_cons_punct_not_lower '.' '.' ['.', '.'] ['.'] hp (by decide) hl,
    @okF_cons_punct_not_lower '.' '.' ['.'] [] hp (by decide) hl,
    okF_cons_punct_all_ws hp (by decide), okF_nil]

theorem okF_punct_ws_dots {c : Char} {m : List Char} (hc : isPunct c = true)
    (hm : ∀ a ∈ m, isJsWs a = true) :
    okF (c :: (m ++ ['.', '.', '.'])) = true := by
  have hdw : (m ++ ['.', '.', '.']).dropWhile isJsWs = '.' :: ['.', '.'] := by
    rw [List.dropWhile_append_of_pos hm]
    decide
  rw [okF_cons_punct_not_lower hc hdw (by decide)]
  rw [okF_cons_no_punct_front (fun a ha => not_punct_of_ws (hm a ha))]
  exact okF_dots

theorem okF_fixPunctSpacing : ∀ l : List Char, okF (fixPunctSpacing l) = true := by
  have H : ∀ n, ∀ l : List Char, l.length ≤ n → okF (fixPunctSpacing l) = true := by
    intro n
    induction n with
    | zero =>
      intro l hl
      have hnil : l = [] := List.length_eq_zero.mp (Nat.le_zero.mp hl)
      subst hnil
      rw [fixPunctSpacing_nil, okF_nil]
    | succ n ih =>
      intro l hl
      match l with
      | [] => rw [fixPunctSpacing_nil, okF_nil]
      | c :: rest =>
        have hrest : rest.length ≤ n := by
          simp only [List.length_cons] at hl
          omega
        by_cases hp : isPunct c = true
        · cases hdw : rest.dropWhile isJsWs with
          | nil =>
            have hallws : ∀ a ∈ rest, isJsWs a = true := by
              intro a ha
              exact List.dropWhile_eq_nil_iff.mp hdw a ha
            have hnp : ∀ a ∈ rest, isPunct a = false :=
              fun a ha => not_punct_of_ws (hallws a ha)
            rw [fixPunctSpacing_cons_punct_all_ws hp hdw, fixPunctSpacing_no_punct hnp,
              okF_cons_punct_all_ws hp hdw]
            exact okF_no_punct hnp
          | cons d rest₂ =>
            obtain ⟨hsplit, hdns, hlen⟩ := dropWhile_cons_decomp hdw
            have hws_front : ∀ a ∈ rest.takeWhile isJsWs, isJsWs a = true :=
              fun a ha => List.mem_takeWhile_imp ha
            by_cases hd : isLowerAZ d = true
            · rw [fixPunctSpacing_cons_punct_lower hp hdw hd]
              have hdw2 : (' ' :: d :: fixPunctSpacing rest₂).dropWhile isJsWs
                  = d :: fixPunctSpacing rest₂ := by
                rw [List.dropWhile_cons_of_pos (by decide),
                  List.dropWhile_cons_of_neg (by simp [not_ws_of_lower hd])]
              rw [okF_cons_punct_lower hp hdw2 hd]
              simp [ih rest₂ (by omega)]
            · rw [Bool.not_eq_true] at hd
              rw [fixPunctSpacing_cons_punct_not_lower hp hdw hd]
              have hfixrest : fixPunctSpacing rest
                  = rest.takeWhile isJsWs ++ fixPunctSpacing (d :: rest₂) := by
                conv_lhs => rw [← hsplit]
                exact fixPunctSpacing_ws_front hws_front
              obtain ⟨t, ht⟩ := fixPunctSpacing_cons_shape d rest₂
              have hdw3 : (fixPunctSpacing rest).dropWhile isJsWs = d :: t := by
                rw [hfixrest, List.dropWhile_append_of_pos hws_front, ht,
                  List.dropWhile_cons_of_neg (by simp [hdns])]
              rw [okF_cons_punct_not_lower hp hdw3 hd, hfixrest,
                okF_cons_no_punct_front (fun a ha => not_punct_of_ws (hws_front a ha))]
              exact ih (d :: rest₂) (by simp only [List.length_cons]; omega)
        · rw [Bool.not_eq_true] at hp
          rw [fixPunctSpacing_cons_not_punct hp, okF_cons_not_punct hp]
          exact ih rest hrest
  exact fun l => H l.length l le_rfl

theorem fixPunctSpacing_of_okF : ∀ l : List Char,
    okF l = true → fixPunctSpacing l = l := by
  have H : ∀ n, ∀ l : List Char, l.length ≤ n → okF l = true → fixPunctSpacing l = l := by
    intro n
    induction n with
    | zero =>
      intro l hl _
      have hnil : l = [] := List.length_eq_zero.mp (Nat.le_zero.mp hl)
      subst hnil
      rw [fixPunctSpacing_nil]
    | succ n ih =>
      intro l hl h
      match l with
      | [] => rw [fixPunctSpacing_nil]
      | c :: rest =>
        have hrest : rest.length ≤ n := by
          simp only [List.length_cons] at hl
          omega
        by_cases hp : isPunct c = true
        · cases hdw : rest.dropWhile isJsWs with
          | nil =>
            rw [okF_cons_punct_all_ws hp hdw] at h
            rw [fixPunctSpacing_cons_punct_all_ws hp hdw, ih rest hrest h]
          | cons d rest₂ =>
            obtain ⟨hsplit, hdns, hlen⟩ := dropWhile_cons_decomp hdw
            by_cases hd : isLowerAZ d = true
            · rw [okF_cons_punct_lower hp hdw hd, Bool.and_eq_true] at h
              obtain ⟨h1, h2⟩ := h
              have heq : rest = ' ' :: d :: rest₂ := of_decide_eq_true h1
              rw [fixPunctSpacing_cons_punct_lower hp hdw hd,
                ih rest₂ (by omega) h2, heq]
            · rw [Bool.not_eq_true] at hd
              rw [okF_cons_punct_not_lower hp hdw hd] at h
              rw [fixPunctSpacing_cons_punct_not_lower hp hdw hd, ih rest hrest h]
        · rw [Bool.not_eq_true] at hp
          rw [okF_cons_not_punct hp] at h
          rw [fixPunctSpacing_cons_not_punct hp, ih rest hrest h]
  exact fun l => H l.length l le_rfl

theorem okF_take_dots : ∀ l : List Char, okF l = true → ∀ k,
    okF (l.take k ++ ['.', '.', '.']) = true := by
  have H : ∀ n, ∀ l : List Char, l.length ≤ n → okF l = true → ∀ k,
      okF (l.take k ++ ['.', '.', '.']) = true := by
    intro n
    induction n with
    | zero =>
      intro l hl _ k
      have hnil : l = [] := List.length_eq_zero.mp (Nat.le_zero.mp hl)
      subst hnil
      rw [List.take_nil, List.nil_append]
      exact okF_dots
    | succ n ih =>
      intro l hl h k
      match l with
      | [] =>
        rw [List.take_nil, List.nil_append]
        exact okF_dots
      | c :: rest =>
        have hrest : rest.length ≤ n := by
          simp only [List.length_cons] at hl
          omega
        cases k with
        | zero =>
          rw [List.take_zero, List.nil_append]
          exact okF_dots
        | succ k =>
          rw [List.take_succ_cons, List.cons_append]
          by_cases hp : isPunct c = true
          · cases hdw : rest.dropWhile isJsWs with
            | nil =>
              have hallws : ∀ a ∈ rest, isJsWs a = true := by
                intro a ha
                exact List.dropWhile_eq_nil_iff.mp hdw a ha
              exact okF_punct_ws_dots hp
                (fun a ha => hallws a (List.take_subset _ _ ha))
            | cons d rest₂ =>
              obtain ⟨hsplit, hdns, hlen⟩ := dropWhile_cons_decomp hdw
              by_cases hd : isLowerAZ d = true
              · rw [okF_cons_punct_lower hp hdw hd, Bool.and_eq_true] at h
                obtain ⟨h1, h2⟩ := h
                have heq : rest = ' ' :: d :: rest₂ := of_decide_eq_true h1
                rw [heq]
                cases k with
                | zero =>
                  rw [List.take_zero, List.nil_append]
                  exact okF_punct_ws_dots hp (fun a ha => absurd ha (List.not_mem_nil a))
                | succ k1 =>
                  rw [List.take_succ_cons]
                  cases k1 with
                  | zero =>
                    rw [List.take_zero]
                    exact okF_punct_ws_dots hp
                      (fun a ha => by
                        rcases List.mem_cons.mp ha with rfl | hb
                        · decide
                        · cases hb)
                  | succ k2 =>
                    rw [List.take_succ_cons, List.cons_append, List.cons_append]
                    have hdw4 : (' ' :: d :: (rest₂.take k2 ++ ['.', '.', '.'])).dropWhile
                        isJsWs = d :: (rest₂.take k2 ++ ['.', '.', '.']) := by
                      rw [List.dropWhile_cons_of_pos (by decide),
                        List.dropWhile_cons_of_neg (by simp [not_ws_of_lower hd])]
                    rw [okF_cons_punct_lower hp hdw4 hd]
                    simp [ih rest₂ (by omega) h2 k2]
              · rw [Bool.not_eq_true] at hd
                rw [okF_cons_punct_not_lower hp hdw hd] at h
                have hws_front : ∀ a ∈ rest.takeWhile isJsWs, isJsWs a = true :=
                  fun a ha => List.mem_takeWhile_imp ha
                have hnp_front : ∀ a ∈ rest.takeWhile isJsWs, isPunct a = false :=
                  fun a ha => not_punct_of_ws (hws_front a ha)
                have hd2 : okF (d :: rest₂) = true := by
                  have hskip := okF_cons_no_punct_front (t := d :: rest₂) hnp_front
                  rw [hsplit] at hskip
                  rw [← hskip]
                  exact h
                by_cases hk : k ≤ (rest.takeWhile isJsWs).length
                · -- the truncation cuts inside the leading whitespace run
                  have htake : rest.take k = (rest.takeWhile isJsWs).take k := by
                    conv_lhs => rw [← hsplit]
                    rw [List.take_append_eq_append_take,
                      Nat.sub_eq_zero_of_le hk, List.take_zero, List.append_nil]
                  rw [htake]
                  exact okF_punct_ws_dots hp
                    (fun a ha => hws_front a (List.take_subset _ _ ha))
                · -- the leading whitespace run survives whole
                  have hklen : (rest.takeWhile isJsWs).length < k := by omega
                  have htake : rest.take k
                      = rest.takeWhile isJsWs
                        ++ (d :: rest₂).take (k - (rest.takeWhile isJsWs).length) := by
                    conv_lhs => rw [← hsplit]
                    rw [List.take_append_eq_append_take,
                      List.take_of_length_le (by omega)]
                  have hk1 : 0 < k - (rest.takeWhile isJsWs).length := by omega
                  rw [htake, List.take_cons hk1, List.append_assoc, List.cons_append]
                  have hdw5 : (rest.takeWhile isJsWs
                      ++ d :: (rest₂.take (k - (rest.takeWhile isJsWs).length - 1)
                        ++ ['.', '.', '.'])).dropWhile isJsWs
                      = d :: (rest₂.take (k - (rest.takeWhile isJsWs).length - 1)
                        ++ ['.', '.', '.']) := by
                    rw [List.dropWhile_append_of_pos hws_front,
                      List.dropWhile_cons_of_neg (by simp [hdns])]
                  rw [okF_cons_punct_not_lower hp hdw5 hd,
                    okF_cons_no_punct_front hnp_front]
                  have := ih (d :: rest₂) (by simp only [List.length_cons]; omega) hd2
                    (k - (rest.takeWhile isJsWs).length)
                  rw [List.take_cons hk1, List.cons_append] at this
                  exact this
          · rw [Bool.not_eq_true] at hp
            rw [okF_cons_not_punct hp] at h
            rw [okF_cons_not_punct hp]
            exact ih rest hrest h k
  exact fun l h k => H l.length l le_rfl h k

theorem okF_limitTo1000 {l : List Char} (h : okF l = true) :
    okF (limitTo1000 l) = true := by
  unfold limitTo1000
  split
  · exact okF_take_dots l h 997
  · exact h

theorem wsOnlySpace_limitTo1000 {l : List Char} (h : wsOnlySpace l = true) :
    wsOnlySpace (limitTo1000 l) = true := by
  unfold limitTo1000
  split
  · exact wsOnlySpace_append (wsOnlySpace_take _ h) (by decide)
  · exact h

theorem noAdjWs_limitTo1000 {l : List Char} (h : noAdjWs l = true) :
    noAdjWs (limitTo1000 l) = true := by
  unfold limitTo1000
  split
  · exact noAdjWs_append_non_ws (noAdjWs_take _ h) (by decide)
  · exact h

theorem noLt_fixPunctSpacing {l : List Char} (h : l.all (fun c => c ≠ '<') = true) :
    (fixPunctSpacing l).all (fun c => c ≠ '<') = true := by
  simp only [List.all_eq_true, decide_eq_true_eq] at h ⊢
  intro a ha
  rcases mem_fixPunctSpacing ha with hm | rfl
  · exact h a hm
  · decide

theorem noLt_capitalizeFirst {l : List Char} (h : l.all (fun c => c ≠ '<') = true) :
    (capitalizeFirst l).all (fun c => c ≠ '<') = true := by
  cases l with
  | nil => exact h
  | cons c rest =>
    show ((c.toUpper :: rest).all fun c => c ≠ '<') = true
    simp only [List.all_cons, Bool.and_eq_true, decide_eq_true_eq] at h ⊢
    refine ⟨?_, h.2⟩
    intro heq
    exact h.1 ((toUpper_eq_lt_iff c).mp heq)

theorem noLt_limitTo1000 {l : List Char} (h : l.all (fun c => c ≠ '<') = true) :
    (limitTo1000 l).all (fun c => c ≠ '<') = true := by
  unfold limitTo1000
  split
  · simp only [List.all_append, Bool.and_eq_true]
    constructor
    · simp only [List.all_eq_true] at h ⊢
      exact fun a ha => h a (List.take_subset _ _ ha)
    · decide
  · exact h

theorem removeHtmlTags_of_all_ne {l : List Char} (h : l.all (fun c => c ≠ '<') = true) :
    removeHtmlTags l = l := by
  apply removeHtmlTags_of_no_lt
  intro a ha
  simp only [List.all_eq_true, decide_eq_true_eq] at h
  exact eq_false (h a ha)

/-- C9: the local cleanup `fallbackEnhancement` is idempotent on
already-clean input: any string ending in terminal punctuation, with no
markup (no `'<'`), and with normalized whitespace (each whitespace
character a single interior plain space) satisfies
cleanup (cleanup x) = cleanup x. -/
theorem fallback_cleanup_idempotent :
    ∀ x : String, isCleanText x.data = true →
      fallbackEnhancement (fallbackEnhancement x) = fallbackEnhancement x := by
  intro x h
  simp only [isCleanText, Bool.and_eq_true] at h
  obtain ⟨⟨⟨⟨hEnds, hLt⟩, hWs⟩, hAdj⟩, hLead⟩ := h
  have hne : x.data ≠ [] := endsWithPunct_ne_nil hEnds
  have htrail : noTrailWs x.data = true := noTrailWs_of_endsPunct hEnds
  have htrim : jsTrimList x.data = x.data := jsTrimList_eq_self hLead htrail
  have hlen0 : ¬(x.data.length = 0) := by
    intro h0
    exact hne (List.length_eq_zero.mp h0)
  have hrm : removeHtmlTags x.data = x.data := removeHtmlTags_of_all_ne hLt
  have hcw : collapseWhitespace x.data = x.data := collapseWhitespace_of_norm hWs hAdj
  have hep : endsWithPunct (capitalizeFirst (fixPunctSpacing x.data)) = true := by
    rw [endsWithPunct_capitalizeFirst, endsWithPunct_fixPunctSpacing]
    exact hEnds
  -- first application of the cleanup
  have hx : fallbackEnhancement x
      = String.mk (limitTo1000 (capitalizeFirst (fixPunctSpacing x.data))) := by
    simp only [fallbackEnhancement, htrim, hrm, hcw, hep, if_true]
    rw [if_neg hlen0]
  -- facts about the first application's output
  obtain ⟨c, rest, hxdata⟩ : ∃ c rest, x.data = c :: rest := by
    cases hd : x.data with
    | nil => exact absurd hd hne
    | cons c rest => exact ⟨c, rest, rfl⟩
  obtain ⟨t1, ht1⟩ := fixPunctSpacing_cons_shape c rest
  have hK : capitalizeFirst (fixPunctSpacing x.data)
      = c.toUpper :: t1 := by
    rw [hxdata, ht1]
    rfl
  obtain ⟨t2, ht2⟩ := limitTo1000_cons_shape c.toUpper t1
  have hm_shape : limitTo1000 (capitalizeFirst (fixPunctSpacing x.data))
      = c.toUpper :: t2 := by
    rw [hK, ht2]
  set m := limitTo1000 (capitalizeFirst (fixPunctSpacing x.data)) with hm_def
  have hokm : okF m = true :=
    okF_limitTo1000 (okF_capitalizeFirst (okF_fixPunctSpacing x.data))
  have hepm : endsWithPunct m = true := endsWithPunct_limitTo1000 hep
  have htrailm : noTrailWs m = true := noTrailWs_of_endsPunct hepm
  have hwc : isJsWs c = false := by
    rw [hxdata] at hLead
    simpa [noLeadWs] using hLead
  have hleadm : noLeadWs m = true := by
    rw [hm_shape]
    simp only [noLeadWs]
    rw [isJsWs_toUpper]
    simp [hwc]
  have hwsm : wsOnlySpace m = true :=
    wsOnlySpace_limitTo1000 (wsOnlySpace_capitalizeFirst (wsOnlySpace_fixPunctSpacing hWs))
  have hadjm : noAdjWs m = true :=
    noAdjWs_limitTo1000 (noAdjWs_capitalizeFirst (noAdjWs_fixPunctSpacing x.data hAdj))
  have hltm : m.all (fun a => a ≠ '<') = true :=
    noLt_limitTo1000 (noLt_capitalizeFirst (noLt_fixPunctSpacing hLt))
  have hnem : m ≠ [] := by
    rw [hm_shape]
    exact List.cons_ne_nil _ _
  have hlenm : m.length ≤ 1000 := limitTo1000_length_le _
  -- second application of the cleanup is the identity on m
  have hdata : (String.mk m).data = m := rfl
  have htrim2 : jsTrimList m = m := jsTrimList_eq_self hleadm htrailm
  have hlen02 : ¬(m.length = 0) := by
    intro h0
    exact hnem (List.length_eq_zero.mp h0)
  have hrm2 : removeHtmlTags m = m := removeHtmlTags_of_all_ne hltm
  have hcw2 : collapseWhitespace m = m := collapseWhitespace_of_norm hwsm hadjm
  have hfix2 : fixPunctSpacing m = m := fixPunctSpacing_of_okF m hokm
  have hcap2 : capitalizeFirst m = m := by
    rw [hm_shape]
    show c.toUpper.toUpper :: t2 = c.toUpper :: t2
    rw [toUpper_toUpper]
  have hlim2 : limitTo1000 m = m := limitTo1000_of_le hlenm
  have hy : fallbackEnhancement (String.mk m) = String.mk m := by
    simp only [fallbackEnhancement, hdata, htrim2, hrm2, hcw2, hfix2, hcap2, hepm,
      if_true, hlim2]
    rw [if_neg hlen02]
  rw [hx, hy]

/-- Witness for C9 at the concrete clean input "Hello world.". -/
theorem fallback_cleanup_idempotent_witness :
    isCleanText ("Hello world.").data = true
    ∧ fallbackEnhancement (fallbackEnhancement "Hello world.")
        = fallbackEnhancement "Hello world." :=
  ⟨by decide, fallback_cleanup_idempotent "Hello world." (by decide)⟩

end Nurdd
